import Mathlib

/-!
Verification of `ZipExtractor/extract_zips.py`.

The script recursively discovers `*.zip` paths under a base directory,
computes a destination directory per archive (a same-named sibling folder in
subfolder mode, the archive's parent in flat mode), creates it, validates the
archive with `testzip`, extracts it with `extractall`, classifying failures
into warnings and errors, and finally prints scanned/extracted/skipped totals.

We shallowly embed the script over an explicit filesystem (a list of
directories and an association list of file contents) together with a `World`
that fixes how the zip library reads each file's bytes.
-/

namespace ZipExtractor

/-- A filesystem path, as a list of name segments (absolute, root implicit). -/
abbrev Path := List String

/-- File contents, as a list of bytes. -/
abbrev Content := List Nat

/-- The last segment of a path: `PurePath.name`. -/
def pathName (p : Path) : String := p.getLastD ""

/-- `pathUnder base p`: `p` lies strictly below `base` (as `rglob` results do). -/
def pathUnder : Path → Path → Bool
  | [], q => !q.isEmpty
  | _ :: _, [] => false
  | a :: as, b :: bs => a == b && pathUnder as bs

/-- Does a name match the glob pattern given to `rglob`, i.e. `*.zip`?
`fnmatch` lets `*` match the empty string, so this is exactly
"ends with `.zip`" (spelled out on the character list so that it
evaluates). -/
def zipName (s : String) : Bool :=
  decide (4 ≤ s.toList.length ∧
    s.toList.drop (s.toList.length - 4) = ['.', 'z', 'i', 'p'])

/-- The filesystem: a set of existing directories (the implicit root `[]`
always exists) and a mapping from file paths to contents, both kept as lists
so that runs are fully executable and traversal order is fixed. -/
structure FS where
  dirs : List Path
  files : List (Path × Content)
deriving Repr, DecidableEq

/-- Look up a key in an association list (first match wins). -/
def lookupAssoc : List (Path × Content) → Path → Option Content
  | [], _ => none
  | (q, d) :: t, p => if q = p then some d else lookupAssoc t p

/-- Look up a file's contents. -/
def FS.lookupFile (fs : FS) (p : Path) : Option Content :=
  lookupAssoc fs.files p

/-- `Path.exists()`: the path is a directory or a file. -/
def FS.pathExists (fs : FS) (p : Path) : Bool :=
  fs.dirs.contains p || (fs.lookupFile p).isSome

/-- `base_dir.rglob("*.zip")`: every path strictly under the base, directory
or file alike, whose final name matches `*.zip`, in the filesystem's
enumeration order. -/
def discover (fs : FS) (base : Path) : List Path :=
  (fs.dirs ++ fs.files.map Prod.fst).filter
    (fun p => pathUnder base p && zipName (pathName p))

/-- All nonempty prefixes of a path, shortest first, the path itself last. -/
def ancestorsIncl (p : Path) : List Path :=
  (List.range p.length).map (fun i => p.take (i + 1))

/-- Insert a directory, keeping enumeration order stable (no-op if present). -/
def addDir (ds : List Path) (q : Path) : List Path :=
  if ds.contains q then ds else ds ++ [q]

/-- `extract_dir.mkdir(parents=True, exist_ok=True)`: creates the directory
and any missing ancestors; raises (returns `none`) when the path or one of
its ancestors already exists as a regular file. -/
def mkdirParents (fs : FS) (p : Path) : Option FS :=
  if (ancestorsIncl p).any (fun q => (fs.lookupFile q).isSome) then none
  else some { fs with dirs := (ancestorsIncl p).foldl addDir fs.dirs }

/-- Update an association list in place, appending when the key is new. -/
def updateAssoc (l : List (Path × Content)) (p : Path) (c : Content) :
    List (Path × Content) :=
  match l with
  | [] => [(p, c)]
  | (q, d) :: t =>
    if q = p then (p, c) :: t else (q, d) :: updateAssoc t p c

/-- Write a file's contents (overwriting silently, as `extractall` does). -/
def setFile (fs : FS) (p : Path) (c : Content) : FS :=
  { fs with files := updateAssoc fs.files p c }

/-- One member of a zip archive: its relative path, its data, and whether its
stored CRC matches the data. -/
structure ZEntry where
  path : Path
  data : Content
  crcOk : Bool
deriving Repr, DecidableEq

/-- What `zipfile` does with a given file's bytes: the archive may be
unreadable (`BadZipFile`), raise a `RuntimeError` (e.g. unsupported
encryption), a `PermissionError`, some other exception, or parse as a list
of entries. -/
inductive ZipParse where
  | badZip (msg : String)
  | runtimeErr (msg : String)
  | permErr (msg : String)
  | otherErr (msg : String)
  | archive (entries : List ZEntry)
deriving Repr, DecidableEq

/-- The ambient world: how the zip library reads each possible file content. -/
structure World where
  parse : Content → ZipParse

/-- `zf.testzip()`: the name of the first member whose stored CRC does not
match its content, or `none` if every member checks out. -/
def testzip (es : List ZEntry) : Option String :=
  match es.find? (fun e => !e.crcOk) with
  | some e => some (String.intercalate "/" e.path)
  | none => none

/-- `pathlib` suffix logic on a file name: the position of the last dot, if
any. -/
def rfindDot (cs : List Char) : Option Nat :=
  match cs.reverse.findIdx? (fun c => c == '.') with
  | some j => some (cs.length - 1 - j)
  | none => none

/-- `PurePath.with_suffix("")` applied to a name: drop the last extension;
a name whose only dot is its first character has no extension and is kept. -/
def withSuffixEmptyName (name : String) : String :=
  match rfindDot name.toList with
  | some i => if 0 < i then String.mk (name.toList.take i) else name
  | none => name

/-- The extension of a file name, `pathlib`-style: everything from the last
dot on, empty when there is no dot or the only dot leads the name. -/
def fileExtension (name : String) : String :=
  match rfindDot name.toList with
  | some i => if 0 < i then String.mk (name.toList.drop i) else ""
  | none => ""

/-- The destination directory for an archive: `zpath.with_suffix("")` in
subfolder mode, `zpath.parent` in flat mode (lines 35-38 of the script). -/
def destFor (subfolder : Bool) (p : Path) : Path :=
  if subfolder then p.dropLast ++ [withSuffixEmptyName (pathName p)]
  else p.dropLast

/-- Severity levels of the `logging` module that the script uses. -/
inductive Level where
  | info
  | warning
  | error
deriving Repr, DecidableEq

/-- The log lines the script can emit for one archive, each carrying the
archive path and, where the script interpolates it, the underlying message. -/
inductive LogEntry where
  | warnCorrupt (archive : Path) (badEntry : String)
  | infoExtracted (src : Path) (dest : Path)
  | warnBadZip (archive : Path)
  | warnRuntime (archive : Path) (msg : String)
  | errPerm (archive : Path) (msg : String)
  | errUnexpected (archive : Path) (msg : String)
deriving Repr, DecidableEq

/-- The severity each log line is emitted at (`logging.warning`,
`logging.info`, `logging.error` calls in the script). -/
def LogEntry.level : LogEntry → Level
  | .warnCorrupt _ _ => .warning
  | .infoExtracted _ _ => .info
  | .warnBadZip _ => .warning
  | .warnRuntime _ _ => .warning
  | .errPerm _ _ => .error
  | .errUnexpected _ _ => .error

/-- The text of each log line, exactly as the script's f-strings build it
(lines 47, 54, 58, 62, 65, 68). Note that the `BadZipFile` line is fixed
text around the archive path: the handler names no exception variable, so
the exception's own message never reaches the log. -/
def LogEntry.render : LogEntry → String
  | .warnCorrupt p bad =>
    "Corrupted member \x27" ++ bad ++ "\x27 inside " ++
      String.intercalate "/" p ++ ". Skipping."
  | .infoExtracted src dest =>
    "Extracted: " ++ String.intercalate "/" src ++ " -> " ++
      String.intercalate "/" dest
  | .warnBadZip p =>
    "Bad/corrupted zip file (BadZipFile): " ++ String.intercalate "/" p ++
      ". Skipping."
  | .warnRuntime p m =>
    "RuntimeError with " ++ String.intercalate "/" p ++ ": " ++ m ++
      ". Skipping."
  | .errPerm p m =>
    "PermissionError extracting " ++ String.intercalate "/" p ++ ": " ++ m ++
      ". Skipping."
  | .errUnexpected p m =>
    "Unexpected error with " ++ String.intercalate "/" p ++ ": " ++ m ++
      ". Skipping."

/-- `extractall` on one member: create the member's missing parent
directories below the destination, then write its data. -/
def extractEntry (fs : FS) (dest : Path) (e : ZEntry) : FS :=
  let target := dest ++ e.path
  let fs1 : FS :=
    { fs with dirs := (ancestorsIncl target.dropLast).foldl addDir fs.dirs }
  setFile fs1 target e.data

/-- `zf.extractall(path=extract_dir)`: extract every member, in order. -/
def extractAll (fs : FS) (dest : Path) (es : List ZEntry) : FS :=
  es.foldl (fun a e => extractEntry a dest e) fs

/-- The outcome of the per-archive body (lines 31-69 of the script):
`abort` when the `mkdir` call, which sits outside the `try` block, raises;
otherwise the archive is either skipped with a log line or extracted. -/
inductive StepOut where
  | abort
  | skipped (fs : FS) (log : LogEntry)
  | extracted (fs : FS) (log : LogEntry)
deriving Repr, DecidableEq

/-- One iteration of the loop over `zip_paths`: compute the destination,
`mkdir` it (uncaught on failure), then open/validate/extract under the
`try`, converting each exception class to a skip with its log line. Opening
a path that is not a regular file (e.g. a directory named `*.zip`) raises
an `OSError`, caught by the catch-all `except Exception`. -/
def processZip (w : World) (subfolder : Bool) (fs : FS) (zpath : Path) :
    StepOut :=
  let extractDir := destFor subfolder zpath
  match mkdirParents fs extractDir with
  | none => .abort
  | some fs1 =>
    match fs1.lookupFile zpath with
    | none => .skipped fs1 (.errUnexpected zpath "not a regular file")
    | some c =>
      match w.parse c with
      | .badZip _ => .skipped fs1 (.warnBadZip zpath)
      | .runtimeErr m => .skipped fs1 (.warnRuntime zpath m)
      | .permErr m => .skipped fs1 (.errPerm zpath m)
      | .otherErr m => .skipped fs1 (.errUnexpected zpath m)
      | .archive es =>
        match testzip es with
        | some bad => .skipped fs1 (.warnCorrupt zpath bad)
        | none =>
          .extracted (extractAll fs1 extractDir es) (.infoExtracted zpath extractDir)

/-- The loop state: the filesystem plus the `extracted_count` /
`skipped_count` tallies and the log so far. -/
structure LoopState where
  fs : FS
  ext : Nat
  skip : Nat
  log : List LogEntry
deriving Repr, DecidableEq

/-- The `for zpath in zip_paths` loop; `none` when an uncaught `mkdir`
exception aborts the run. -/
def runLoop (w : World) (subfolder : Bool) :
    LoopState → List Path → Option LoopState
  | st, [] => some st
  | st, p :: rest =>
    match processZip w subfolder st.fs p with
    | .abort => none
    | .skipped fs1 l =>
      runLoop w subfolder ⟨fs1, st.ext, st.skip + 1, st.log ++ [l]⟩ rest
    | .extracted fs1 l =>
      runLoop w subfolder ⟨fs1, st.ext + 1, st.skip, st.log ++ [l]⟩ rest

/-- The observable outcome of `main`: the fail-fast `sys.exit(1)` on a
missing root, the early return when no archives are found, an uncaught
exception, or normal completion with the printed totals. -/
inductive RunResult where
  | rootMissing (fs : FS) (message : String)
  | noZips (fs : FS) (message : String)
  | aborted
  | completed (fs : FS) (tot ext skip : Nat) (log : List LogEntry)
deriving Repr, DecidableEq

/-- The process exit indication: `sys.exit(1)` for a missing root, a nonzero
interpreter exit for an uncaught exception, `0` otherwise. -/
def RunResult.exitCode : RunResult → Nat
  | .rootMissing _ _ => 1
  | .noZips _ _ => 0
  | .aborted => 1
  | .completed _ _ _ _ _ => 0

/-- The filesystem when the run ends (unknown for an aborted run). -/
def RunResult.finalFS : RunResult → Option FS
  | .rootMissing fs _ => some fs
  | .noZips fs _ => some fs
  | .aborted => none
  | .completed fs _ _ _ _ => some fs

/-- `main(base_dir, extract_into_subfolder)` from `extract_zips.py`. -/
def mainRun (w : World) (fs : FS) (base : Path) (subfolder : Bool) :
    RunResult :=
  if !fs.pathExists base then
    .rootMissing fs
      ("Error: base directory does not exist: " ++ String.intercalate "/" base)
  else
    let zips := discover fs base
    if zips.isEmpty then
      .noZips fs ("No .zip files found under: " ++ String.intercalate "/" base)
    else
      match runLoop w subfolder ⟨fs, 0, 0, []⟩ zips with
      | none => .aborted
      | some st => .completed st.fs zips.length st.ext st.skip st.log

/-! ### Derived notions used to state the claims -/

/-- The log line the `except` clauses of the script produce for a given
exception class (`none` for a successfully parsed archive, which raises no
exception). Each line carries the archive path, and the message where the
script interpolates one. -/
def errLog (p : Path) : ZipParse → Option LogEntry
  | .badZip _ => some (.warnBadZip p)
  | .runtimeErr m => some (.warnRuntime p m)
  | .permErr m => some (.errPerm p m)
  | .otherErr m => some (.errUnexpected p m)
  | .archive _ => none

/-- The severity the spec assigns to each exception class: permission and
unexpected errors at error level, the rest at warning level. -/
def exceptionLevel : ZipParse → Option Level
  | .badZip _ => some .warning
  | .runtimeErr _ => some .warning
  | .permErr _ => some .error
  | .otherErr _ => some .error
  | .archive _ => none

/-- The log text the script emits for each exception class: the runtime,
permission and unexpected lines interpolate the underlying message, while
the `BadZipFile` line is fixed text around the archive path — its
underlying message is discarded by the handler. -/
def exceptionLogText (p : Path) : ZipParse → Option String
  | .badZip _ =>
    some ("Bad/corrupted zip file (BadZipFile): " ++
      String.intercalate "/" p ++ ". Skipping.")
  | .runtimeErr m =>
    some ("RuntimeError with " ++ String.intercalate "/" p ++ ": " ++ m ++
      ". Skipping.")
  | .permErr m =>
    some ("PermissionError extracting " ++ String.intercalate "/" p ++ ": " ++
      m ++ ". Skipping.")
  | .otherErr m =>
    some ("Unexpected error with " ++ String.intercalate "/" p ++ ": " ++ m ++
      ". Skipping.")
  | .archive _ => none

/-- The members that a run starting from `fs` will extract for the archive
at `p`: the parsed entries when `p` is a readable archive that passes
`testzip`, nothing otherwise. -/
def archiveEntries (w : World) (fs : FS) (p : Path) : List ZEntry :=
  match fs.lookupFile p with
  | none => []
  | some c =>
    match w.parse c with
    | .archive es =>
      match testzip es with
      | none => es
      | some _ => []
    | _ => []

/-- The file paths extraction of the archive at `p` writes. -/
def targetsOf (w : World) (fs : FS) (sub : Bool) (p : Path) : List Path :=
  (archiveEntries w fs p).map (fun e => destFor sub p ++ e.path)

/-- All file paths a whole run writes. -/
def allTargets (w : World) (fs : FS) (base : Path) (sub : Bool) : List Path :=
  (discover fs base).flatMap (targetsOf w fs sub)

/-- Every proper prefix of an existing path is an existing directory, as on
a real filesystem. -/
def FS.wfPrefixClosed (fs : FS) : Bool :=
  (fs.dirs ++ fs.files.map Prod.fst).all (fun p =>
    (ancestorsIncl p.dropLast).all (fun q => fs.dirs.contains q))

/-- An extracted member stays clear of the discovery pattern: its relative
path is nonempty and none of its segments is named `*.zip`. -/
def entryOk (e : ZEntry) : Bool :=
  !e.path.isEmpty && e.path.all (fun s => !zipName s)

/-- No archive of the run produces new `*.zip` paths: destination folder
names do not match `*.zip` and neither does any extracted member segment. -/
def noNestedZips (w : World) (fs : FS) (base : Path) : Bool :=
  (discover fs base).all (fun p =>
    !zipName (withSuffixEmptyName (pathName p)) &&
    (archiveEntries w fs p).all entryOk)

/-- The part of the filesystem a rerun observes: a run whose writes avoid
`*.zip` names only appends non-`*.zip` directories and file keys and keeps
every `*.zip`-named path's contents intact. -/
def SimInv (fs0 fs : FS) : Prop :=
  (∃ Δ, fs.dirs = fs0.dirs ++ Δ ∧ ∀ q ∈ Δ, zipName (pathName q) = false) ∧
  (∃ Γ, fs.files.map Prod.fst = fs0.files.map Prod.fst ++ Γ ∧
    ∀ q ∈ Γ, zipName (pathName q) = false) ∧
  (∀ p, zipName (pathName p) = true → fs.lookupFile p = fs0.lookupFile p)

/-- The per-archive side conditions of the idempotency theorem, judged from
the initial filesystem: the archive is discovered, its destination folder
name escapes the discovery pattern, and so do all its members. -/
def goodZip (w : World) (fs0 : FS) (base : Path) (p : Path) : Prop :=
  p ∈ discover fs0 base ∧
  zipName (withSuffixEmptyName (pathName p)) = false ∧
  ∀ e ∈ archiveEntries w fs0 p, entryOk e = true

/-! ### Concrete fixtures used by witnesses and counterexamples -/

/-- A small world of file contents: `[0]` and `[1]` are archives (the second
with a corrupt member), `[2]` is an archive containing a nested zip, `[3]`,
`[4]`, `[5]` raise the three exception classes, everything else is a bad
zip. -/
def wZ : World := ⟨fun c =>
  if c = [0] then .archive [⟨["x.txt"], [7], true⟩]
  else if c = [1] then .archive [⟨["a.txt"], [1], true⟩, ⟨["b.txt"], [2], false⟩]
  else if c = [2] then .archive [⟨["inner.zip"], [0], true⟩]
  else if c = [3] then .runtimeErr "boom"
  else if c = [4] then .permErr "denied"
  else if c = [5] then .otherErr "weird"
  else if c = [8] then .badZip "first underlying message"
  else if c = [9] then .badZip "second underlying message"
  else .badZip "not a zip"⟩

/-- Root `r` holding a valid archive and a corrupt one. -/
def fsA : FS := ⟨[["r"]], [(["r", "a.zip"], [0]), (["r", "b.zip"], [1])]⟩

/-- The filesystem after a subfolder-mode run over `fsA`. -/
def fsA' : FS :=
  ⟨[["r"], ["r", "a"], ["r", "b"]],
   [(["r", "a.zip"], [0]), (["r", "b.zip"], [1]), (["r", "a", "x.txt"], [7])]⟩

/-- The log of that run. -/
def logA : List LogEntry :=
  [.infoExtracted ["r", "a.zip"] ["r", "a"], .warnCorrupt ["r", "b.zip"] "b.txt"]

/-- `fsA` after only `r/b.zip`'s destination directory has been created. -/
def fs1B : FS := ⟨[["r"], ["r", "b"]], fsA.files⟩

/-- A root where a regular file `r/a` blocks `r/a.zip`'s destination. -/
def fsB : FS :=
  ⟨[["r"]], [(["r", "a"], [9]), (["r", "a.zip"], [0]), (["r", "b.zip"], [0])]⟩

/-- A root where a regular file `r/b` blocks the destination of the second
discovered archive, while the first archive extracts fine. -/
def fsB2 : FS :=
  ⟨[["r"]],
   [(["r", "a.zip"], [0]), (["r", "b"], [9]), (["r", "b.zip"], [0])]⟩

/-- `fsB2` after the first archive `r/a.zip` has been extracted. -/
def fsB2a : FS :=
  ⟨[["r"], ["r", "a"]],
   [(["r", "a.zip"], [0]), (["r", "b"], [9]), (["r", "b.zip"], [0]),
    (["r", "a", "x.txt"], [7])]⟩

/-- The loop state of a run over `fsB2` right before its second archive. -/
def stB2 : LoopState :=
  ⟨fsB2a, 1, 0, [.infoExtracted ["r", "a.zip"] ["r", "a"]]⟩

/-- A root whose only archive raises `BadZipFile` with one message. -/
def fsH8 : FS := ⟨[["r"]], [(["r", "x.zip"], [8])]⟩

/-- A root whose only archive raises `BadZipFile` with another message. -/
def fsH9 : FS := ⟨[["r"]], [(["r", "x.zip"], [9])]⟩

/-- A root containing a directory named `r/d.zip` and no zip files. -/
def fsC : FS := ⟨[["r"], ["r", "d.zip"]], []⟩

/-- A root with an archive that contains a nested `inner.zip`. -/
def fsD : FS := ⟨[["r"]], [(["r", "a.zip"], [2])]⟩

/-- `fsD` after the first subfolder-mode run: the nested zip now exists. -/
def fsD1 : FS :=
  ⟨[["r"], ["r", "a"]],
   [(["r", "a.zip"], [2]), (["r", "a", "inner.zip"], [0])]⟩

/-- `fsD1` after the second run, which also extracts the nested zip. -/
def fsD2 : FS :=
  ⟨[["r"], ["r", "a"], ["r", "a", "inner"]],
   [(["r", "a.zip"], [2]), (["r", "a", "inner.zip"], [0]),
    (["r", "a", "inner", "x.txt"], [7])]⟩

/-- A root with a single well-behaved archive. -/
def fsE : FS := ⟨[["r"]], [(["r", "a.zip"], [0])]⟩

/-- `fsE` after one subfolder-mode run. -/
def fsE1 : FS :=
  ⟨[["r"], ["r", "a"]], [(["r", "a.zip"], [0]), (["r", "a", "x.txt"], [7])]⟩

/-- `fsE1` after a second subfolder-mode run (spelled out separately). -/
def fsE2 : FS :=
  ⟨[["r"], ["r", "a"]], [(["r", "a.zip"], [0]), (["r", "a", "x.txt"], [7])]⟩

/-- A root with one archive whose bytes raise `PermissionError`. -/
def fsG : FS := ⟨[["r"]], [(["r", "p.zip"], [4])]⟩

/-- `fsG` after `r/p.zip`'s destination directory has been created. -/
def fs1G : FS := ⟨[["r"], ["r", "p"]], fsG.files⟩

/-- An existing, empty root. -/
def fsR : FS := ⟨[["r"]], []⟩

/-- A filesystem without the root `r`. -/
def fsEmpty : FS := ⟨[], []⟩

/-! ### Helper lemmas: association lists -/

theorem contains_iff (l : List Path) (q : Path) : l.contains q = true ↔ q ∈ l :=
  List.elem_iff

theorem lookupAssoc_updateAssoc_self (l : List (Path × Content)) (p : Path)
    (c : Content) : lookupAssoc (updateAssoc l p c) p = some c := by
  induction l with
  | nil => simp [updateAssoc, lookupAssoc]
  | cons kv t ih =>
    obtain ⟨q, d⟩ := kv
    by_cases h : q = p
    · subst h
      simp [updateAssoc, lookupAssoc]
    · simp [updateAssoc, lookupAssoc, h, ih]

theorem lookupAssoc_updateAssoc_ne (l : List (Path × Content)) (p k : Path)
    (c : Content) (h : k ≠ p) :
    lookupAssoc (updateAssoc l p c) k = lookupAssoc l k := by
  induction l with
  | nil =>
    simp only [updateAssoc, lookupAssoc]
    rw [if_neg (fun hh => h hh.symm)]
  | cons kv t ih =>
    obtain ⟨q, d⟩ := kv
    by_cases hq : q = p
    · subst hq
      simp only [updateAssoc, if_pos rfl, lookupAssoc]
      rw [if_neg (fun hh => h hh.symm), if_neg (fun hh => h hh.symm)]
    · simp only [updateAssoc, if_neg hq, lookupAssoc]
      by_cases hqk : q = k
      · simp [hqk]
      · simp [hqk, ih]

theorem updateAssoc_eq_of_lookup (l : List (Path × Content)) (p : Path)
    (c : Content) (h : lookupAssoc l p = some c) : updateAssoc l p c = l := by
  induction l with
  | nil => simp [lookupAssoc] at h
  | cons kv t ih =>
    obtain ⟨q, d⟩ := kv
    by_cases hq : q = p
    · subst hq
      have hd : d = c := by simpa [lookupAssoc] using h
      subst hd
      simp [updateAssoc]
    · simp only [lookupAssoc, if_neg hq] at h
      simp [updateAssoc, hq, ih h]

theorem map_fst_updateAssoc (l : List (Path × Content)) (p : Path) (c : Content) :
    (updateAssoc l p c).map Prod.fst = l.map Prod.fst ∨
      (updateAssoc l p c).map Prod.fst = l.map Prod.fst ++ [p] := by
  induction l with
  | nil => simp [updateAssoc]
  | cons kv t ih =>
    obtain ⟨q, d⟩ := kv
    by_cases hq : q = p
    · subst hq
      simp [updateAssoc]
    · rcases ih with h | h <;> simp [updateAssoc, hq, h]

/-! ### Helper lemmas: directory creation -/

theorem foldl_addDir_append (qs ds : List Path) :
    ∃ Δ, qs.foldl addDir ds = ds ++ Δ ∧ ∀ q ∈ Δ, q ∈ qs ∧ q ∉ ds := by
  induction qs generalizing ds with
  | nil => exact ⟨[], by simp, by simp⟩
  | cons q qs ih =>
    by_cases h : ds.contains q
    · simp only [List.foldl_cons, addDir, if_pos h]
      obtain ⟨Δ, h1, h2⟩ := ih ds
      exact ⟨Δ, h1, fun x hx => ⟨List.mem_cons_of_mem _ (h2 x hx).1, (h2 x hx).2⟩⟩
    · simp only [List.foldl_cons, addDir, if_neg h]
      obtain ⟨Δ, h1, h2⟩ := ih (ds ++ [q])
      refine ⟨q :: Δ, by simpa using h1, ?_⟩
      intro x hx
      rcases List.mem_cons.mp hx with rfl | hx
      · exact ⟨List.mem_cons_self _ _, fun hm => h ((contains_iff ds x).mpr hm)⟩
      · refine ⟨List.mem_cons_of_mem _ (h2 x hx).1, fun hm => (h2 x hx).2 ?_⟩
        exact List.mem_append.mpr (Or.inl hm)

theorem mem_foldl_addDir_left (qs ds : List Path) (q : Path) (h : q ∈ ds) :
    q ∈ qs.foldl addDir ds := by
  obtain ⟨Δ, h1, _⟩ := foldl_addDir_append qs ds
  rw [h1]
  exact List.mem_append.mpr (Or.inl h)

theorem mem_foldl_addDir_of_mem (qs ds : List Path) (q : Path) (h : q ∈ qs) :
    q ∈ qs.foldl addDir ds := by
  induction qs generalizing ds with
  | nil => cases h
  | cons x qs ih =>
    rcases List.mem_cons.mp h with rfl | h
    · rw [List.foldl_cons]
      apply mem_foldl_addDir_left
      by_cases hm : q ∈ ds
      · simp [addDir, (contains_iff ds q).mpr hm, hm]
      · have hc : ds.contains q = false := by
          rw [Bool.eq_false_iff]
          exact fun hh => hm ((contains_iff ds q).mp hh)
        simp [addDir, hc, hm]
    · exact ih _ h

theorem foldl_addDir_of_all_mem (qs ds : List Path) (h : ∀ q ∈ qs, q ∈ ds) :
    qs.foldl addDir ds = ds := by
  induction qs with
  | nil => rfl
  | cons q qs ih =>
    have hq : ds.contains q = true := (contains_iff ds q).mpr (h q (by simp))
    simp only [List.foldl_cons, addDir, if_pos hq]
    exact ih (fun x hx => h x (List.mem_cons_of_mem _ hx))

theorem self_mem_ancestorsIncl (p : Path) (hp : p ≠ []) : p ∈ ancestorsIncl p := by
  have hl : 0 < p.length := List.length_pos.mpr hp
  have : p.length - 1 ∈ List.range p.length := List.mem_range.mpr (by omega)
  refine List.mem_map.mpr ⟨p.length - 1, this, ?_⟩
  have : p.length - 1 + 1 = p.length := by omega
  rw [this, List.take_length]

theorem mem_ancestorsIncl (p q : Path) :
    q ∈ ancestorsIncl p ↔ ∃ i, i < p.length ∧ q = p.take (i + 1) := by
  simp only [ancestorsIncl, List.mem_map, List.mem_range]
  constructor
  · rintro ⟨i, hi, rfl⟩
    exact ⟨i, hi, rfl⟩
  · rintro ⟨i, hi, rfl⟩
    exact ⟨i, hi, rfl⟩

theorem mkdirParents_files {fs fs' : FS} {p : Path}
    (h : mkdirParents fs p = some fs') : fs'.files = fs.files := by
  unfold mkdirParents at h
  split at h
  · exact absurd h (by simp)
  · cases h
    rfl

theorem mkdirParents_dirs_append {fs fs' : FS} {p : Path}
    (h : mkdirParents fs p = some fs') :
    ∃ Δ, fs'.dirs = fs.dirs ++ Δ ∧
      ∀ q ∈ Δ, q ∈ ancestorsIncl p ∧ q ∉ fs.dirs := by
  unfold mkdirParents at h
  split at h
  · exact absurd h (by simp)
  · cases h
    exact foldl_addDir_append _ _

theorem mkdirParents_dirs_mono {fs fs' : FS} {p : Path}
    (h : mkdirParents fs p = some fs') {q : Path} (hq : q ∈ fs.dirs) :
    q ∈ fs'.dirs := by
  obtain ⟨Δ, h1, _⟩ := mkdirParents_dirs_append h
  rw [h1]
  exact List.mem_append.mpr (Or.inl hq)

theorem mkdirParents_mem_ancestors {fs fs' : FS} {p : Path}
    (h : mkdirParents fs p = some fs') {q : Path} (hq : q ∈ ancestorsIncl p) :
    q ∈ fs'.dirs := by
  unfold mkdirParents at h
  split at h
  · exact absurd h (by simp)
  · cases h
    exact mem_foldl_addDir_of_mem _ _ _ hq

theorem mkdirParents_mem_self {fs fs' : FS} {p : Path}
    (h : mkdirParents fs p = some fs') (hp : p ≠ []) : p ∈ fs'.dirs :=
  mkdirParents_mem_ancestors h (self_mem_ancestorsIncl p hp)

theorem mkdirParents_noop {fs fs' : FS} {p : Path}
    (h : mkdirParents fs p = some fs')
    (hall : ∀ q ∈ ancestorsIncl p, q ∈ fs.dirs) : fs' = fs := by
  unfold mkdirParents at h
  split at h
  · exact absurd h (by simp)
  · cases h
    rw [foldl_addDir_of_all_mem _ _ hall]

theorem mkdirParents_isSome_of_no_file {fs : FS} {p : Path}
    (h : ∀ q ∈ ancestorsIncl p, fs.lookupFile q = none) :
    mkdirParents fs p = some { fs with dirs := (ancestorsIncl p).foldl addDir fs.dirs } := by
  unfold mkdirParents
  rw [if_neg]
  simp only [List.any_eq_true, not_exists]
  intro q
  rintro ⟨hq, hq2⟩
  rw [h q hq] at hq2
  simp at hq2

/-! ### Helper lemmas: file writes and extraction -/

theorem FS.ext' {a b : FS} (h1 : a.dirs = b.dirs) (h2 : a.files = b.files) :
    a = b := by
  cases a
  cases b
  cases h1
  cases h2
  rfl

theorem extractEntry_dirs (fs : FS) (dest : Path) (e : ZEntry) :
    (extractEntry fs dest e).dirs =
      (ancestorsIncl (dest ++ e.path).dropLast).foldl addDir fs.dirs := rfl

theorem extractEntry_files (fs : FS) (dest : Path) (e : ZEntry) :
    (extractEntry fs dest e).files =
      updateAssoc fs.files (dest ++ e.path) e.data := rfl

theorem extractEntry_lookup_self (fs : FS) (dest : Path) (e : ZEntry) :
    (extractEntry fs dest e).lookupFile (dest ++ e.path) = some e.data :=
  lookupAssoc_updateAssoc_self _ _ _

theorem extractEntry_lookup_ne (fs : FS) (dest : Path) (e : ZEntry) (k : Path)
    (h : k ≠ dest ++ e.path) :
    (extractEntry fs dest e).lookupFile k = fs.lookupFile k :=
  lookupAssoc_updateAssoc_ne _ _ _ _ h

theorem extractEntry_dirs_mono (fs : FS) (dest : Path) (e : ZEntry) (q : Path)
    (h : q ∈ fs.dirs) : q ∈ (extractEntry fs dest e).dirs := by
  rw [extractEntry_dirs]
  exact mem_foldl_addDir_left _ _ _ h

theorem extractEntry_noop (fs : FS) (dest : Path) (e : ZEntry)
    (hd : ∀ q ∈ ancestorsIncl (dest ++ e.path).dropLast, q ∈ fs.dirs)
    (hl : fs.lookupFile (dest ++ e.path) = some e.data) :
    extractEntry fs dest e = fs := by
  refine FS.ext' ?_ ?_
  · rw [extractEntry_dirs]
    exact foldl_addDir_of_all_mem _ _ hd
  · rw [extractEntry_files]
    exact updateAssoc_eq_of_lookup _ _ _ hl

theorem extractAll_cons (fs : FS) (dest : Path) (e : ZEntry) (es : List ZEntry) :
    extractAll fs dest (e :: es) = extractAll (extractEntry fs dest e) dest es := rfl

theorem extractAll_dirs_mono (es : List ZEntry) (fs : FS) (dest : Path) (q : Path)
    (h : q ∈ fs.dirs) : q ∈ (extractAll fs dest es).dirs := by
  induction es generalizing fs with
  | nil => exact h
  | cons e es ih =>
    rw [extractAll_cons]
    exact ih _ (extractEntry_dirs_mono _ _ _ _ h)

theorem extractAll_lookup_not_target (es : List ZEntry) (fs : FS) (dest : Path)
    (k : Path) (h : ∀ e ∈ es, k ≠ dest ++ e.path) :
    (extractAll fs dest es).lookupFile k = fs.lookupFile k := by
  induction es generalizing fs with
  | nil => rfl
  | cons e es ih =>
    rw [extractAll_cons, ih _ (fun e' he' => h e' (List.mem_cons_of_mem _ he'))]
    exact extractEntry_lookup_ne _ _ _ _ (h e (List.mem_cons_self _ _))

theorem extractAll_lookup_target (es : List ZEntry) (fs : FS) (dest : Path)
    (hnd : (es.map (fun e => dest ++ e.path)).Nodup) :
    ∀ e ∈ es, (extractAll fs dest es).lookupFile (dest ++ e.path) = some e.data := by
  induction es generalizing fs with
  | nil => intro e he; cases he
  | cons e0 es ih =>
    intro e he
    rw [List.map_cons, List.nodup_cons] at hnd
    rcases List.mem_cons.mp he with rfl | he
    · rw [extractAll_cons, extractAll_lookup_not_target]
      · exact extractEntry_lookup_self _ _ _
      · intro e' he' heq
        exact hnd.1 (heq ▸ List.mem_map.mpr ⟨e', he', rfl⟩)
    · rw [extractAll_cons]
      exact ih _ hnd.2 e he

theorem extractAll_noop (es : List ZEntry) (fs : FS) (dest : Path)
    (h : ∀ e ∈ es, fs.lookupFile (dest ++ e.path) = some e.data ∧
      ∀ q ∈ ancestorsIncl (dest ++ e.path).dropLast, q ∈ fs.dirs) :
    extractAll fs dest es = fs := by
  induction es with
  | nil => rfl
  | cons e es ih =>
    rw [extractAll_cons,
      extractEntry_noop _ _ _ (h e (List.mem_cons_self _ _)).2
        (h e (List.mem_cons_self _ _)).1]
    exact ih (fun e' he' => h e' (List.mem_cons_of_mem _ he'))

theorem extractAll_map_fst (es : List ZEntry) (fs : FS) (dest : Path) :
    ∃ Γ, (extractAll fs dest es).files.map Prod.fst = fs.files.map Prod.fst ++ Γ ∧
      ∀ q ∈ Γ, ∃ e ∈ es, q = dest ++ e.path := by
  induction es generalizing fs with
  | nil => exact ⟨[], by simp [extractAll], by simp⟩
  | cons e es ih =>
    obtain ⟨Γ, h2, h3⟩ := ih (extractEntry fs dest e)
    rw [extractAll_cons]
    rcases map_fst_updateAssoc fs.files (dest ++ e.path) e.data with h1 | h1
    · refine ⟨Γ, ?_, ?_⟩
      · rw [h2, extractEntry_files, h1]
      · intro q hq
        obtain ⟨e', he', heq⟩ := h3 q hq
        exact ⟨e', List.mem_cons_of_mem _ he', heq⟩
    · refine ⟨(dest ++ e.path) :: Γ, ?_, ?_⟩
      · rw [h2, extractEntry_files, h1]
        simp
      · intro q hq
        rcases List.mem_cons.mp hq with rfl | hq
        · exact ⟨e, List.mem_cons_self _ _, rfl⟩
        · obtain ⟨e', he', heq⟩ := h3 q hq
          exact ⟨e', List.mem_cons_of_mem _ he', heq⟩

theorem extractAll_dirs_append (es : List ZEntry) (fs : FS) (dest : Path) :
    ∃ Δ, (extractAll fs dest es).dirs = fs.dirs ++ Δ ∧
      ∀ q ∈ Δ, q ∉ fs.dirs ∧
        ∃ e ∈ es, q ∈ ancestorsIncl (dest ++ e.path).dropLast := by
  induction es generalizing fs with
  | nil => exact ⟨[], by simp [extractAll], by simp⟩
  | cons e es ih =>
    obtain ⟨Δ2, h2, h3⟩ := ih (extractEntry fs dest e)
    rw [extractAll_cons]
    obtain ⟨Δ1, g1, g2⟩ := foldl_addDir_append
      (ancestorsIncl (dest ++ e.path).dropLast) fs.dirs
    refine ⟨Δ1 ++ Δ2, ?_, ?_⟩
    · rw [h2, extractEntry_dirs, g1, List.append_assoc]
    · intro q hq
      rcases List.mem_append.mp hq with hq | hq
      · exact ⟨(g2 q hq).2, e, List.mem_cons_self _ _, (g2 q hq).1⟩
      · have hnot : q ∉ (extractEntry fs dest e).dirs := (h3 q hq).1
        refine ⟨fun hm => hnot (extractEntry_dirs_mono _ _ _ _ hm), ?_⟩
        obtain ⟨e', he', hmem⟩ := (h3 q hq).2
        exact ⟨e', List.mem_cons_of_mem _ he', hmem⟩

/-! ### Helper lemmas: the per-archive step -/

theorem processZip_cases (w : World) (sub : Bool) (fs : FS) (p : Path) :
    (mkdirParents fs (destFor sub p) = none ∧ processZip w sub fs p = .abort) ∨
    ∃ fs1, mkdirParents fs (destFor sub p) = some fs1 ∧
      ((∃ l, processZip w sub fs p = .skipped fs1 l) ∨
       (∃ c es, fs1.lookupFile p = some c ∧ w.parse c = .archive es ∧
         testzip es = none ∧
         processZip w sub fs p =
           .extracted (extractAll fs1 (destFor sub p) es)
             (.infoExtracted p (destFor sub p)))) := by
  cases hm : mkdirParents fs (destFor sub p) with
  | none => exact Or.inl ⟨rfl, by simp [processZip, hm]⟩
  | some fs1 =>
    refine Or.inr ⟨fs1, rfl, ?_⟩
    cases hf : fs1.lookupFile p with
    | none =>
      exact Or.inl ⟨.errUnexpected p "not a regular file",
        by simp [processZip, hm, hf]⟩
    | some c =>
      cases hp : w.parse c with
      | badZip m => exact Or.inl ⟨.warnBadZip p, by simp [processZip, hm, hf, hp]⟩
      | runtimeErr m =>
        exact Or.inl ⟨.warnRuntime p m, by simp [processZip, hm, hf, hp]⟩
      | permErr m =>
        exact Or.inl ⟨.errPerm p m, by simp [processZip, hm, hf, hp]⟩
      | otherErr m =>
        exact Or.inl ⟨.errUnexpected p m, by simp [processZip, hm, hf, hp]⟩
      | archive es =>
        cases ht : testzip es with
        | some b =>
          exact Or.inl ⟨.warnCorrupt p b, by simp [processZip, hm, hf, hp, ht]⟩
        | none =>
          refine Or.inr ⟨c, es, rfl, hp, ht, ?_⟩
          simp [processZip, hm, hf, hp, ht]

theorem processZip_skipped_shape {w : World} {sub : Bool} {fs : FS} {p : Path}
    {fs1 : FS} {l : LogEntry} (h : processZip w sub fs p = .skipped fs1 l) :
    mkdirParents fs (destFor sub p) = some fs1 := by
  rcases processZip_cases w sub fs p with ⟨_, habort⟩ | ⟨fsm, hm, hcase⟩
  · rw [habort] at h
    cases h
  · rcases hcase with ⟨l', hskip⟩ | ⟨c, es, _, _, _, hext⟩
    · rw [hskip] at h
      injection h with h1 _
      rw [← h1]
      exact hm
    · rw [hext] at h
      cases h

theorem processZip_extracted_shape {w : World} {sub : Bool} {fs : FS} {p : Path}
    {fs1 : FS} {l : LogEntry} (h : processZip w sub fs p = .extracted fs1 l) :
    ∃ fsm c es, mkdirParents fs (destFor sub p) = some fsm ∧
      fsm.lookupFile p = some c ∧ w.parse c = .archive es ∧ testzip es = none ∧
      fs1 = extractAll fsm (destFor sub p) es := by
  rcases processZip_cases w sub fs p with ⟨_, habort⟩ | ⟨fsm, hm, hcase⟩
  · rw [habort] at h
    cases h
  · rcases hcase with ⟨l', hskip⟩ | ⟨c, es, hf, hp, ht, hext⟩
    · rw [hskip] at h
      cases h
    · rw [hext] at h
      injection h with h1 _
      exact ⟨fsm, c, es, hm, hf, hp, ht, h1.symm⟩

theorem processZip_dirs_mono {w : World} {sub : Bool} {fs : FS} {p : Path}
    {fs1 : FS} {l : LogEntry}
    (h : processZip w sub fs p = .skipped fs1 l ∨
      processZip w sub fs p = .extracted fs1 l) :
    ∀ q ∈ fs.dirs, q ∈ fs1.dirs := by
  rcases h with h | h
  · intro q hq
    exact mkdirParents_dirs_mono (processZip_skipped_shape h) hq
  · obtain ⟨fsm, c, es, hm, _, _, _, hfs1⟩ := processZip_extracted_shape h
    intro q hq
    rw [hfs1]
    exact extractAll_dirs_mono _ _ _ _ (mkdirParents_dirs_mono hm hq)

/-! ### Helper lemmas: the batch loop -/

theorem runLoop_nil (w : World) (sub : Bool) (st : LoopState) :
    runLoop w sub st [] = some st := rfl

theorem runLoop_cons (w : World) (sub : Bool) (st : LoopState) (p : Path)
    (rest : List Path) :
    runLoop w sub st (p :: rest) =
      match processZip w sub st.fs p with
      | .abort => none
      | .skipped fs1 l =>
        runLoop w sub ⟨fs1, st.ext, st.skip + 1, st.log ++ [l]⟩ rest
      | .extracted fs1 l =>
        runLoop w sub ⟨fs1, st.ext + 1, st.skip, st.log ++ [l]⟩ rest := rfl

theorem runLoop_append (w : World) (sub : Bool) (xs ys : List Path)
    (st : LoopState) :
    runLoop w sub st (xs ++ ys) =
      (runLoop w sub st xs).bind (fun st' => runLoop w sub st' ys) := by
  induction xs generalizing st with
  | nil => simp [runLoop_nil]
  | cons p xs ih =>
    rw [List.cons_append, runLoop_cons, runLoop_cons]
    cases processZip w sub st.fs p with
    | abort => simp
    | skipped fs1 l => exact ih _
    | extracted fs1 l => exact ih _

theorem runLoop_tally {w : World} {sub : Bool} {st st' : LoopState}
    {zs : List Path} (h : runLoop w sub st zs = some st') :
    st'.ext + st'.skip = st.ext + st.skip + zs.length := by
  induction zs generalizing st with
  | nil =>
    rw [runLoop_nil] at h
    injection h with h
    subst h
    simp
  | cons p zs ih =>
    rw [runLoop_cons] at h
    cases hstep : processZip w sub st.fs p <;> rw [hstep] at h
    · cases h
    · have h2 : st'.ext + st'.skip = st.ext + (st.skip + 1) + zs.length := ih h
      simp only [List.length_cons]
      omega
    · have h2 : st'.ext + st'.skip = st.ext + 1 + st.skip + zs.length := ih h
      simp only [List.length_cons]
      omega

theorem runLoop_dirs_mono {w : World} {sub : Bool} {st st' : LoopState}
    {zs : List Path} (h : runLoop w sub st zs = some st') :
    ∀ q ∈ st.fs.dirs, q ∈ st'.fs.dirs := by
  induction zs generalizing st with
  | nil =>
    rw [runLoop_nil] at h
    injection h with h
    subst h
    exact fun q hq => hq
  | cons p zs ih =>
    rw [runLoop_cons] at h
    cases hstep : processZip w sub st.fs p <;> rw [hstep] at h
    · cases h
    · exact fun q hq => ih h q (processZip_dirs_mono (Or.inl hstep) q hq)
    · exact fun q hq => ih h q (processZip_dirs_mono (Or.inr hstep) q hq)

theorem runLoop_dest_mem {w : World} {sub : Bool} {st st' : LoopState}
    {zs : List Path} (h : runLoop w sub st zs = some st')
    {p : Path} (hp : p ∈ zs) (hne : destFor sub p ≠ []) :
    destFor sub p ∈ st'.fs.dirs := by
  induction zs generalizing st with
  | nil => cases hp
  | cons q zs ih =>
    rw [runLoop_cons] at h
    cases hstep : processZip w sub st.fs q <;> rw [hstep] at h
    · cases h
    · rename_i fs1 l
      rcases List.mem_cons.mp hp with rfl | hp2
      · have hm := processZip_skipped_shape hstep
        exact runLoop_dirs_mono h _ (mkdirParents_mem_self hm hne)
      · exact ih h hp2
    · rename_i fs1 l
      rcases List.mem_cons.mp hp with rfl | hp2
      · obtain ⟨fsm, c, es, hm, -, -, -, hfs1⟩ := processZip_extracted_shape hstep
        refine runLoop_dirs_mono h _ ?_
        rw [hfs1]
        exact extractAll_dirs_mono _ _ _ _ (mkdirParents_mem_self hm hne)
      · exact ih h hp2

/-! ### Helper lemmas: `main` -/

theorem mainRun_completed_elim {w : World} {fs : FS} {base : Path} {sub : Bool}
    {fs' : FS} {tot ext skip : Nat} {log : List LogEntry}
    (h : mainRun w fs base sub = .completed fs' tot ext skip log) :
    fs.pathExists base = true ∧
    runLoop w sub ⟨fs, 0, 0, []⟩ (discover fs base) = some ⟨fs', ext, skip, log⟩ ∧
    tot = (discover fs base).length := by
  unfold mainRun at h
  by_cases h1 : fs.pathExists base = true
  · rw [h1] at h
    simp only [Bool.not_true, Bool.false_eq_true, if_false] at h
    by_cases h2 : (discover fs base).isEmpty = true
    · rw [if_pos h2] at h
      cases h
    · rw [if_neg h2] at h
      cases hr : runLoop w sub ⟨fs, 0, 0, []⟩ (discover fs base) <;> rw [hr] at h
      · cases h
      · rename_i st
        injection h with hfs htot hext hskip hlog
        cases st
        simp only at hfs hext hskip hlog
        subst hfs htot hext hskip hlog
        exact ⟨h1, rfl, rfl⟩
  · rw [Bool.not_eq_true] at h1
    rw [h1] at h
    simp only [Bool.not_false, if_true] at h
    cases h

theorem mem_discover {fs : FS} {base p : Path} :
    p ∈ discover fs base ↔
      (p ∈ fs.dirs ∨ p ∈ fs.files.map Prod.fst) ∧
        pathUnder base p = true ∧ zipName (pathName p) = true := by
  constructor
  · intro h
    have h2 := List.mem_filter.mp h
    have h3 : pathUnder base p = true ∧ zipName (pathName p) = true := by
      simpa using h2.2
    exact ⟨List.mem_append.mp h2.1, h3.1, h3.2⟩
  · rintro ⟨h1, h2, h3⟩
    refine List.mem_filter.mpr ⟨List.mem_append.mpr h1, ?_⟩
    rw [h2, h3]
    rfl

theorem zipName_of_mem_discover {fs : FS} {base p : Path}
    (h : p ∈ discover fs base) : zipName (pathName p) = true :=
  (mem_discover.mp h).2.2

theorem mem_fs_of_mem_discover {fs : FS} {base p : Path}
    (h : p ∈ discover fs base) : p ∈ fs.dirs ∨ p ∈ fs.files.map Prod.fst :=
  (mem_discover.mp h).1

/-! ### Helper lemmas: names and suffixes -/

theorem mkStr_append (a b : List Char) :
    String.mk a ++ String.mk b = String.mk (a ++ b) := rfl

theorem mkStr_toList (s : String) : String.mk s.toList = s := by
  cases s
  rfl

theorem withSuffixEmptyName_append_ext (s : String) :
    withSuffixEmptyName s ++ fileExtension s = s := by
  unfold withSuffixEmptyName fileExtension
  cases h : rfindDot s.toList with
  | none => exact String.append_empty s
  | some i =>
    have hgoal : (if 0 < i then String.mk (s.toList.take i) else s) ++
        (if 0 < i then String.mk (s.toList.drop i) else "") = s := by
      by_cases hi : 0 < i
      · rw [if_pos hi, if_pos hi, mkStr_append, List.take_append_drop]
        exact mkStr_toList s
      · rw [if_neg hi, if_neg hi]
        exact String.append_empty s
    exact hgoal

theorem pathName_destFor_true (p : Path) :
    pathName (destFor true p) = withSuffixEmptyName (pathName p) := by
  simp only [destFor, if_pos rfl, pathName]
  exact List.getLastD_concat _ _ _

theorem dropLast_destFor_true (p : Path) :
    (destFor true p).dropLast = p.dropLast := by
  simp only [destFor, if_pos rfl]
  exact List.dropLast_concat

/-! ### Helper lemmas: rerunning the batch -/

theorem pathName_cons_cons (a b : String) (r : List String) :
    pathName (a :: b :: r) = pathName (b :: r) := by
  simp [pathName, List.getLastD_cons]

theorem pathName_append (l1 : Path) {r : Path} (h : r ≠ []) :
    pathName (l1 ++ r) = pathName r := by
  induction l1 with
  | nil => rfl
  | cons a l1 ih =>
    rw [List.cons_append]
    have hne : l1 ++ r ≠ [] := by simp [h]
    obtain ⟨b, t, hbt⟩ : ∃ b t, l1 ++ r = b :: t := by
      cases hlr : l1 ++ r with
      | nil => exact absurd hlr hne
      | cons b t => exact ⟨b, t, rfl⟩
    rw [hbt, pathName_cons_cons, ← hbt, ih]

theorem pathName_mem {r : Path} (h : r ≠ []) : pathName r ∈ r := by
  induction r with
  | nil => exact absurd rfl h
  | cons a r ih =>
    cases r with
    | nil => simp [pathName, List.getLastD]
    | cons b r2 =>
      rw [pathName_cons_cons]
      exact List.mem_cons_of_mem _ (ih (by simp))

theorem mem_ancestorsIncl_append {l1 l2 q : Path}
    (h : q ∈ ancestorsIncl (l1 ++ l2)) :
    q ∈ ancestorsIncl l1 ∨ ∃ k, 1 ≤ k ∧ k ≤ l2.length ∧ q = l1 ++ l2.take k := by
  obtain ⟨i, hi, rfl⟩ := (mem_ancestorsIncl _ _).mp h
  rw [List.length_append] at hi
  by_cases hle : i + 1 ≤ l1.length
  · left
    refine (mem_ancestorsIncl _ _).mpr ⟨i, by omega, ?_⟩
    rw [List.take_append_eq_append_take]
    have h0 : i + 1 - l1.length = 0 := by omega
    rw [h0, List.take_zero, List.append_nil]
  · right
    refine ⟨i + 1 - l1.length, by omega, by omega, ?_⟩
    rw [List.take_append_eq_append_take,
      List.take_of_length_le (by omega : l1.length ≤ i + 1)]

theorem destFor_true_eq (p : Path) :
    destFor true p = p.dropLast ++ [withSuffixEmptyName (pathName p)] := rfl

theorem destFor_true_ne_nil (p : Path) : destFor true p ≠ [] := by
  rw [destFor_true_eq]
  simp

theorem SimInv_refl (fs : FS) : SimInv fs fs :=
  ⟨⟨[], by simp, by simp⟩, ⟨[], by simp, by simp⟩, fun _ _ => rfl⟩

theorem SimInv_mem_dirs {fs0 fs : FS} (h : SimInv fs0 fs) {q : Path}
    (hq : q ∈ fs0.dirs) : q ∈ fs.dirs := by
  obtain ⟨Δ, hd, -⟩ := h.1
  rw [hd]
  exact List.mem_append.mpr (Or.inl hq)

theorem discover_eq_of_SimInv {fs0 fs : FS} (h : SimInv fs0 fs) (base : Path) :
    discover fs base = discover fs0 base := by
  obtain ⟨⟨Δ, hΔ, hΔz⟩, ⟨Γ, hΓ, hΓz⟩, -⟩ := h
  unfold discover
  rw [hΔ, hΓ, List.filter_append, List.filter_append, List.filter_append,
    List.filter_append]
  have hΔnil : Δ.filter (fun p => pathUnder base p && zipName (pathName p)) = [] := by
    rw [List.filter_eq_nil_iff]
    intro q hq
    rw [hΔz q hq]
    simp
  have hΓnil : Γ.filter (fun p => pathUnder base p && zipName (pathName p)) = [] := by
    rw [List.filter_eq_nil_iff]
    intro q hq
    rw [hΓz q hq]
    simp
  rw [hΔnil, hΓnil, List.append_nil, List.append_nil]

theorem wf_ancestors {fs0 : FS} (hwf : fs0.wfPrefixClosed = true) {p : Path}
    (hp : p ∈ fs0.dirs ∨ p ∈ fs0.files.map Prod.fst) :
    ∀ q ∈ ancestorsIncl p.dropLast, q ∈ fs0.dirs := by
  unfold FS.wfPrefixClosed at hwf
  rw [List.all_eq_true] at hwf
  have h2 := hwf p (List.mem_append.mpr hp)
  rw [List.all_eq_true] at h2
  exact fun q hq => (contains_iff _ _).mp (h2 q hq)

theorem goodZip_of_noNested {w : World} {fs0 : FS} {base : Path}
    (hnz : noNestedZips w fs0 base = true) :
    ∀ p ∈ discover fs0 base, goodZip w fs0 base p := by
  unfold noNestedZips at hnz
  rw [List.all_eq_true] at hnz
  intro p hp
  have h2 := hnz p hp
  rw [Bool.and_eq_true, Bool.not_eq_true', List.all_eq_true] at h2
  exact ⟨hp, h2.1, h2.2⟩

theorem archiveEntries_eq {w : World} {fs : FS} {p : Path} {c : Content}
    {es : List ZEntry} (hf : fs.lookupFile p = some c)
    (hp : w.parse c = .archive es) (ht : testzip es = none) :
    archiveEntries w fs p = es := by
  simp [archiveEntries, hf, hp, ht]

theorem processZip_extracts {w : World} {sub : Bool} {fs fsm : FS} {p : Path}
    {c : Content} {es : List ZEntry}
    (hm : mkdirParents fs (destFor sub p) = some fsm)
    (hf : fsm.lookupFile p = some c) (hp : w.parse c = .archive es)
    (ht : testzip es = none) :
    processZip w sub fs p =
      .extracted (extractAll fsm (destFor sub p) es)
        (.infoExtracted p (destFor sub p)) := by
  simp [processZip, hm, hf, hp, ht]

theorem entryOk_elim {e : ZEntry} (h : entryOk e = true) :
    e.path ≠ [] ∧ ∀ s ∈ e.path, zipName s = false := by
  unfold entryOk at h
  rw [Bool.and_eq_true, Bool.not_eq_true', List.all_eq_true] at h
  refine ⟨fun hnil => by simp [hnil] at h, fun s hs => ?_⟩
  have h2 := h.2 s hs
  rwa [Bool.not_eq_true'] at h2

theorem take_one_singleton (x : String) : List.take 1 [x] = [x] := rfl

theorem mkdirParents_sim {fs0 fs fs1 : FS} {p : Path}
    (hsim : SimInv fs0 fs)
    (hwfp : ∀ q ∈ ancestorsIncl p.dropLast, q ∈ fs0.dirs)
    (hname : zipName (withSuffixEmptyName (pathName p)) = false)
    (hmk : mkdirParents fs (destFor true p) = some fs1) :
    SimInv fs0 fs1 := by
  obtain ⟨⟨Δ, hΔ, hΔz⟩, hfiles, hlook⟩ := hsim
  obtain ⟨Δ2, hΔ2, hΔ2p⟩ := mkdirParents_dirs_append hmk
  have hfiles1 : fs1.files = fs.files := mkdirParents_files hmk
  refine ⟨⟨Δ ++ Δ2, ?_, ?_⟩, ?_, ?_⟩
  · rw [hΔ2, hΔ, List.append_assoc]
  · intro q hq
    rcases List.mem_append.mp hq with hq | hq
    · exact hΔz q hq
    · obtain ⟨hanc, hnot⟩ := hΔ2p q hq
      rw [destFor_true_eq] at hanc
      rcases mem_ancestorsIncl_append hanc with hql | ⟨k, hk1, hk2, rfl⟩
      · refine absurd ?_ hnot
        rw [hΔ]
        exact List.mem_append.mpr (Or.inl (hwfp q hql))
      · have hk : k = 1 := by
          simp only [List.length_singleton] at hk2
          omega
        subst hk
        rw [take_one_singleton, pathName_append _ (by simp)]
        simpa [pathName, List.getLastD] using hname
  · rw [hfiles1]
    exact hfiles
  · intro q hq
    show lookupAssoc fs1.files q = _
    rw [hfiles1]
    exact hlook q hq

theorem extractEntry_sim {fs0 fs : FS} {p : Path} {e : ZEntry}
    (hsim : SimInv fs0 fs)
    (hwfp : ∀ q ∈ ancestorsIncl p.dropLast, q ∈ fs0.dirs)
    (hdest : destFor true p ∈ fs.dirs)
    (hok : entryOk e = true) :
    SimInv fs0 (extractEntry fs (destFor true p) e) := by
  obtain ⟨hpne, hseg⟩ := entryOk_elim hok
  obtain ⟨⟨Δ, hΔ, hΔz⟩, ⟨Γ, hΓ, hΓz⟩, hlook⟩ := hsim
  have htargetName : zipName (pathName (destFor true p ++ e.path)) = false := by
    rw [pathName_append _ hpne]
    exact hseg _ (pathName_mem hpne)
  obtain ⟨Δ3, hΔ3, hΔ3p⟩ :=
    foldl_addDir_append
      (ancestorsIncl ((destFor true p ++ e.path).dropLast)) fs.dirs
  refine ⟨⟨Δ ++ Δ3, ?_, ?_⟩, ?_, ?_⟩
  · rw [extractEntry_dirs, hΔ3, hΔ, List.append_assoc]
  · intro q hq
    rcases List.mem_append.mp hq with hq | hq
    · exact hΔz q hq
    · obtain ⟨hanc, hnot⟩ := hΔ3p q hq
      rw [List.dropLast_append_of_ne_nil _ hpne] at hanc
      rcases mem_ancestorsIncl_append hanc with hql | ⟨k, hk1, hk2, rfl⟩
      · rw [destFor_true_eq] at hql
        rcases mem_ancestorsIncl_append hql with hql2 | ⟨k, hk1, hk2, rfl⟩
        · refine absurd ?_ hnot
          rw [hΔ]
          exact List.mem_append.mpr (Or.inl (hwfp q hql2))
        · have hk : k = 1 := by
            simp only [List.length_singleton] at hk2
            omega
          subst hk
          rw [take_one_singleton]
          rw [take_one_singleton, ← destFor_true_eq] at hnot
          exact absurd hdest hnot
      · have hne2 : e.path.dropLast.take k ≠ [] := by
          have : 0 < e.path.dropLast.length := by omega
          intro hcon
          have := congrArg List.length hcon
          simp only [List.length_take, List.length_nil] at this
          omega
        rw [pathName_append _ hne2]
        exact hseg _ (List.dropLast_subset _ (List.take_subset _ _ (pathName_mem hne2)))
  · rcases map_fst_updateAssoc fs.files (destFor true p ++ e.path) e.data
      with h1 | h1
    · refine ⟨Γ, ?_, hΓz⟩
      rw [extractEntry_files, h1, hΓ]
    · refine ⟨Γ ++ [destFor true p ++ e.path], ?_, ?_⟩
      · rw [extractEntry_files, h1, hΓ, List.append_assoc]
      · intro q hq
        rcases List.mem_append.mp hq with hq | hq
        · exact hΓz q hq
        · rw [List.mem_singleton] at hq
          subst hq
          exact htargetName
  · intro q hq
    have hqne : q ≠ destFor true p ++ e.path := by
      intro hcon
      rw [hcon, htargetName] at hq
      cases hq
    rw [extractEntry_lookup_ne _ _ _ _ hqne]
    exact hlook q hq

theorem extractAll_sim {fs0 : FS} {p : Path} {es : List ZEntry} :
    ∀ {fs : FS}, SimInv fs0 fs →
      (∀ q ∈ ancestorsIncl p.dropLast, q ∈ fs0.dirs) →
      destFor true p ∈ fs.dirs →
      (∀ e ∈ es, entryOk e = true) →
      SimInv fs0 (extractAll fs (destFor true p) es) := by
  induction es with
  | nil =>
    intro fs hsim _ _ _
    exact hsim
  | cons e es ih =>
    intro fs hsim hwfp hdest hok
    rw [extractAll_cons]
    exact ih (extractEntry_sim hsim hwfp hdest (hok e (List.mem_cons_self _ _)))
      hwfp (extractEntry_dirs_mono _ _ _ _ hdest)
      (fun e2 he2 => hok e2 (List.mem_cons_of_mem _ he2))

theorem extractAll_mem_ancestors (es : List ZEntry) (fs : FS) (dest : Path) :
    ∀ e ∈ es, ∀ q ∈ ancestorsIncl ((dest ++ e.path).dropLast),
      q ∈ (extractAll fs dest es).dirs := by
  induction es generalizing fs with
  | nil =>
    intro e he
    cases he
  | cons e0 es ih =>
    intro e he q hq
    rcases List.mem_cons.mp he with rfl | he
    · rw [extractAll_cons]
      apply extractAll_dirs_mono
      rw [extractEntry_dirs]
      exact mem_foldl_addDir_of_mem _ _ _ hq
    · rw [extractAll_cons]
      exact ih _ e he q hq

theorem runLoop_sim {w : World} {fs0 : FS} {base : Path}
    (hwf : fs0.wfPrefixClosed = true) :
    ∀ (zs : List Path) (st st' : LoopState), runLoop w true st zs = some st' →
      (∀ p ∈ zs, goodZip w fs0 base p) → SimInv fs0 st.fs →
      SimInv fs0 st'.fs := by
  intro zs
  induction zs with
  | nil =>
    intro st st' h _ hsim
    rw [runLoop_nil] at h
    injection h with h
    subst h
    exact hsim
  | cons p zs ih =>
    intro st st' h hgood hsim
    rw [runLoop_cons] at h
    cases hstep : processZip w true st.fs p <;> rw [hstep] at h
    · cases h
    · rename_i fs1 l
      have hmk := processZip_skipped_shape hstep
      have hgp := hgood p (List.mem_cons_self _ _)
      have hsim1 : SimInv fs0 fs1 :=
        mkdirParents_sim hsim
          (wf_ancestors hwf (mem_fs_of_mem_discover hgp.1)) hgp.2.1 hmk
      exact ih _ _ h (fun q hq => hgood q (List.mem_cons_of_mem _ hq)) hsim1
    · rename_i fs1 l
      obtain ⟨fsm, c, es, hmk, hfm, hpc, hts, hfs1⟩ :=
        processZip_extracted_shape hstep
      have hgp := hgood p (List.mem_cons_self _ _)
      have hwfp := wf_ancestors hwf (mem_fs_of_mem_discover hgp.1)
      have hsimm : SimInv fs0 fsm := mkdirParents_sim hsim hwfp hgp.2.1 hmk
      have hfslookup : st.fs.lookupFile p = some c := by
        show lookupAssoc st.fs.files p = some c
        rw [← mkdirParents_files hmk]
        exact hfm
      have hf0 : fs0.lookupFile p = some c := by
        rw [← hsim.2.2 p (zipName_of_mem_discover hgp.1)]
        exact hfslookup
      have hae : archiveEntries w fs0 p = es := archiveEntries_eq hf0 hpc hts
      have hok : ∀ e ∈ es, entryOk e = true := by
        rw [← hae]
        exact hgp.2.2
      have hdest : destFor true p ∈ fsm.dirs :=
        mkdirParents_mem_self hmk (destFor_true_ne_nil p)
      have hsim1 : SimInv fs0 fs1 := by
        rw [hfs1]
        exact extractAll_sim hsimm hwfp hdest hok
      exact ih _ _ h (fun q hq => hgood q (List.mem_cons_of_mem _ hq)) hsim1

theorem runLoop_preserve_lookup {w : World} {fs0 : FS} {base : Path}
    (hwf : fs0.wfPrefixClosed = true) :
    ∀ (zs : List Path) (st st' : LoopState), runLoop w true st zs = some st' →
      (∀ p ∈ zs, goodZip w fs0 base p) → SimInv fs0 st.fs →
      ∀ k v, st.fs.lookupFile k = some v →
        (∀ p ∈ zs, k ∉ targetsOf w fs0 true p) →
        st'.fs.lookupFile k = some v := by
  intro zs
  induction zs with
  | nil =>
    intro st st' h _ _ k v hk _
    rw [runLoop_nil] at h
    injection h with h
    subst h
    exact hk
  | cons p zs ih =>
    intro st st' h hgood hsim k v hk hnt
    rw [runLoop_cons] at h
    cases hstep : processZip w true st.fs p <;> rw [hstep] at h
    · cases h
    · rename_i fs1 l
      have hmk := processZip_skipped_shape hstep
      have hgp := hgood p (List.mem_cons_self _ _)
      have hsim1 : SimInv fs0 fs1 :=
        mkdirParents_sim hsim
          (wf_ancestors hwf (mem_fs_of_mem_discover hgp.1)) hgp.2.1 hmk
      have hk1 : fs1.lookupFile k = some v := by
        show lookupAssoc fs1.files k = some v
        rw [mkdirParents_files hmk]
        exact hk
      exact ih _ _ h (fun q hq => hgood q (List.mem_cons_of_mem _ hq)) hsim1
        k v hk1 (fun q hq => hnt q (List.mem_cons_of_mem _ hq))
    · rename_i fs1 l
      obtain ⟨fsm, c, es, hmk, hfm, hpc, hts, hfs1⟩ :=
        processZip_extracted_shape hstep
      have hgp := hgood p (List.mem_cons_self _ _)
      have hwfp := wf_ancestors hwf (mem_fs_of_mem_discover hgp.1)
      have hsimm : SimInv fs0 fsm := mkdirParents_sim hsim hwfp hgp.2.1 hmk
      have hfslookup : st.fs.lookupFile p = some c := by
        show lookupAssoc st.fs.files p = some c
        rw [← mkdirParents_files hmk]
        exact hfm
      have hf0 : fs0.lookupFile p = some c := by
        rw [← hsim.2.2 p (zipName_of_mem_discover hgp.1)]
        exact hfslookup
      have hae : archiveEntries w fs0 p = es := archiveEntries_eq hf0 hpc hts
      have hok : ∀ e ∈ es, entryOk e = true := by
        rw [← hae]
        exact hgp.2.2
      have hdest : destFor true p ∈ fsm.dirs :=
        mkdirParents_mem_self hmk (destFor_true_ne_nil p)
      have hsim1 : SimInv fs0 fs1 := by
        rw [hfs1]
        exact extractAll_sim hsimm hwfp hdest hok
      have hkm : fsm.lookupFile k = some v := by
        show lookupAssoc fsm.files k = some v
        rw [mkdirParents_files hmk]
        exact hk
      have hknot : ∀ e ∈ es, k ≠ destFor true p ++ e.path := by
        intro e he hcon
        refine hnt p (List.mem_cons_self _ _) ?_
        rw [targetsOf, hae]
        exact List.mem_map.mpr ⟨e, he, hcon.symm⟩
      have hk1 : fs1.lookupFile k = some v := by
        rw [hfs1]
        rw [extractAll_lookup_not_target _ _ _ _ hknot]
        exact hkm
      exact ih _ _ h (fun q hq => hgood q (List.mem_cons_of_mem _ hq)) hsim1
        k v hk1 (fun q hq => hnt q (List.mem_cons_of_mem _ hq))

theorem allTargets_split {w : World} {fs : FS} {base : Path} {sub : Bool}
    {l1 l2 : List Path} {p : Path}
    (hsplit : discover fs base = l1 ++ p :: l2)
    (hnd : (allTargets w fs base sub).Nodup) :
    (targetsOf w fs sub p).Nodup ∧
    ∀ k ∈ targetsOf w fs sub p, ∀ q ∈ l2, k ∉ targetsOf w fs sub q := by
  unfold allTargets at hnd
  rw [hsplit, List.flatMap_append, List.flatMap_cons, List.nodup_append] at hnd
  obtain ⟨-, hnd2, -⟩ := hnd
  rw [List.nodup_append] at hnd2
  obtain ⟨hnp, -, hdisj⟩ := hnd2
  refine ⟨hnp, fun k hk q hq hcon => ?_⟩
  exact (List.disjoint_left.mp hdisj) hk (List.mem_flatMap.mpr ⟨q, hq, hcon⟩)

theorem run1_facts {w : World} {fs0 : FS} {base : Path} {st0 stf : LoopState}
    (hwf : fs0.wfPrefixClosed = true)
    (hnz : noNestedZips w fs0 base = true)
    (hnd : (allTargets w fs0 base true).Nodup)
    (hst0 : st0.fs = fs0)
    (hrun : runLoop w true st0 (discover fs0 base) = some stf) :
    SimInv fs0 stf.fs ∧
    ∀ p ∈ discover fs0 base,
      (∀ q ∈ ancestorsIncl (destFor true p), q ∈ stf.fs.dirs) ∧
      ∀ e ∈ archiveEntries w fs0 p,
        stf.fs.lookupFile (destFor true p ++ e.path) = some e.data ∧
        ∀ q ∈ ancestorsIncl ((destFor true p ++ e.path).dropLast),
          q ∈ stf.fs.dirs := by
  have hgood := goodZip_of_noNested hnz
  have hsim0 : SimInv fs0 st0.fs := by
    rw [hst0]
    exact SimInv_refl fs0
  refine ⟨runLoop_sim hwf _ _ _ hrun hgood hsim0, ?_⟩
  intro p hp
  obtain ⟨l1, l2, hsplit⟩ := List.append_of_mem hp
  have hgood1 : ∀ q ∈ l1, goodZip w fs0 base q := fun q hq =>
    hgood q (hsplit ▸ List.mem_append.mpr (Or.inl hq))
  have hgood2 : ∀ q ∈ l2, goodZip w fs0 base q := fun q hq =>
    hgood q (hsplit ▸ List.mem_append.mpr (Or.inr (List.mem_cons_of_mem _ hq)))
  have hgp : goodZip w fs0 base p := hgood p hp
  rw [hsplit, runLoop_append] at hrun
  cases hmid : runLoop w true st0 l1 <;> rw [hmid] at hrun
  · cases hrun
  · rename_i stm
    simp only [Option.some_bind] at hrun
    have hsimm : SimInv fs0 stm.fs := runLoop_sim hwf _ _ _ hmid hgood1 hsim0
    rw [runLoop_cons] at hrun
    cases hstep : processZip w true stm.fs p <;> rw [hstep] at hrun
    · cases hrun
    · rename_i fs1 l
      have hmk := processZip_skipped_shape hstep
      have hanc : ∀ q ∈ ancestorsIncl (destFor true p), q ∈ fs1.dirs :=
        fun q hq => mkdirParents_mem_ancestors hmk hq
      have hae : archiveEntries w fs0 p = [] := by
        cases hc : fs0.lookupFile p with
        | none => simp [archiveEntries, hc]
        | some c =>
          cases hpc : w.parse c with
          | badZip m => simp [archiveEntries, hc, hpc]
          | runtimeErr m => simp [archiveEntries, hc, hpc]
          | permErr m => simp [archiveEntries, hc, hpc]
          | otherErr m => simp [archiveEntries, hc, hpc]
          | archive es =>
            cases hts : testzip es with
            | some b => simp [archiveEntries, hc, hpc, hts]
            | none =>
              exfalso
              have hfm : fs1.lookupFile p = some c := by
                show lookupAssoc fs1.files p = some c
                rw [mkdirParents_files hmk]
                have : stm.fs.lookupFile p = some c := by
                  rw [hsimm.2.2 p (zipName_of_mem_discover hgp.1)]
                  exact hc
                exact this
              have hext := processZip_extracts hmk hfm hpc hts
              rw [hstep] at hext
              cases hext
      refine ⟨?_, ?_⟩
      · intro q hq
        exact runLoop_dirs_mono hrun q (hanc q hq)
      · intro e he
        rw [hae] at he
        cases he
    · rename_i fs1 l
      obtain ⟨fsm, c, es, hmk, hfm, hpc, hts, hfs1⟩ :=
        processZip_extracted_shape hstep
      have hwfp := wf_ancestors hwf (mem_fs_of_mem_discover hgp.1)
      have hsimf : SimInv fs0 fsm := mkdirParents_sim hsimm hwfp hgp.2.1 hmk
      have hfslookup : stm.fs.lookupFile p = some c := by
        show lookupAssoc stm.fs.files p = some c
        rw [← mkdirParents_files hmk]
        exact hfm
      have hf0 : fs0.lookupFile p = some c := by
        rw [← hsimm.2.2 p (zipName_of_mem_discover hgp.1)]
        exact hfslookup
      have hae : archiveEntries w fs0 p = es := archiveEntries_eq hf0 hpc hts
      have hok : ∀ e ∈ es, entryOk e = true := by
        rw [← hae]
        exact hgp.2.2
      have hdest : destFor true p ∈ fsm.dirs :=
        mkdirParents_mem_self hmk (destFor_true_ne_nil p)
      have hsim1 : SimInv fs0 fs1 := by
        rw [hfs1]
        exact extractAll_sim hsimf hwfp hdest hok
      obtain ⟨hndp, hdisj⟩ := allTargets_split hsplit hnd
      have hndes : (es.map (fun e => destFor true p ++ e.path)).Nodup := by
        have : targetsOf w fs0 true p =
            es.map (fun e => destFor true p ++ e.path) := by
          rw [targetsOf, hae]
        rw [← this]
        exact hndp
      refine ⟨?_, ?_⟩
      · intro q hq
        refine runLoop_dirs_mono hrun q ?_
        rw [hfs1]
        exact extractAll_dirs_mono _ _ _ _ (mkdirParents_mem_ancestors hmk hq)
      · intro e he
        rw [hae] at he
        have hlk1 : fs1.lookupFile (destFor true p ++ e.path) = some e.data := by
          rw [hfs1]
          exact extractAll_lookup_target _ _ _ hndes e he
        have hmemtarget : destFor true p ++ e.path ∈ targetsOf w fs0 true p := by
          rw [targetsOf, hae]
          exact List.mem_map.mpr ⟨e, he, rfl⟩
        constructor
        · exact runLoop_preserve_lookup hwf _ _ _ hrun hgood2 hsim1 _ _ hlk1
            (fun q hq => hdisj _ hmemtarget q hq)
        · intro q hq
          refine runLoop_dirs_mono hrun q ?_
          rw [hfs1]
          exact extractAll_mem_ancestors _ _ _ e he q hq

theorem runLoop_noop {w : World} {fs0 : FS} {base : Path} {fsn : FS}
    (hsim : SimInv fs0 fsn)
    (hfacts : ∀ p ∈ discover fs0 base,
      (∀ q ∈ ancestorsIncl (destFor true p), q ∈ fsn.dirs) ∧
      ∀ e ∈ archiveEntries w fs0 p,
        fsn.lookupFile (destFor true p ++ e.path) = some e.data ∧
        ∀ q ∈ ancestorsIncl ((destFor true p ++ e.path).dropLast),
          q ∈ fsn.dirs) :
    ∀ (zs : List Path) (st st' : LoopState),
      (∀ p ∈ zs, p ∈ discover fs0 base) →
      st.fs = fsn → runLoop w true st zs = some st' → st'.fs = fsn := by
  intro zs
  induction zs with
  | nil =>
    intro st st' _ hst h
    rw [runLoop_nil] at h
    injection h with h
    subst h
    exact hst
  | cons p zs ih =>
    intro st st' hmem hst h
    rw [runLoop_cons] at h
    cases hstep : processZip w true st.fs p <;> rw [hstep] at h
    · cases h
    · rename_i fs1 l
      have hmk := processZip_skipped_shape hstep
      rw [hst] at hmk
      have hfs1 : fs1 = fsn :=
        mkdirParents_noop hmk (hfacts p (hmem p (List.mem_cons_self _ _))).1
      exact ih _ _ (fun q hq => hmem q (List.mem_cons_of_mem _ hq)) hfs1 h
    · rename_i fs1 l
      obtain ⟨fsm, c, es, hmk, hfm, hpc, hts, hfs1⟩ :=
        processZip_extracted_shape hstep
      rw [hst] at hmk
      have hfsm : fsm = fsn :=
        mkdirParents_noop hmk (hfacts p (hmem p (List.mem_cons_self _ _))).1
      rw [hfsm] at hfm hfs1
      have hf0 : fs0.lookupFile p = some c := by
        rw [← hsim.2.2 p
          (zipName_of_mem_discover (hmem p (List.mem_cons_self _ _)))]
        exact hfm
      have hae : archiveEntries w fs0 p = es := archiveEntries_eq hf0 hpc hts
      have hnoop : extractAll fsn (destFor true p) es = fsn := by
        apply extractAll_noop
        intro e he
        have hfe := (hfacts p (hmem p (List.mem_cons_self _ _))).2 e
          (by rw [hae]; exact he)
        exact hfe
      have hfs1n : fs1 = fsn := by
        rw [hfs1, hnoop]
      exact ih _ _ (fun q hq => hmem q (List.mem_cons_of_mem _ hq)) hfs1n h

/-! ## The claims -/

/-- **C1** (corrected), counterexample to the claim as stated: over the root
`fsA` the run scans `total = 2` archives, yet right after the first archive
is processed the tallies satisfy `extracted + skipped = 1 ≠ 2 = total`, so
"total = extracted + skipped holds after each archive is processed" fails
mid-run. -/
theorem C1_counterexample :
    (discover fsA ["r"]).length = 2 ∧
    (runLoop wZ true ⟨fsA, 0, 0, []⟩ ((discover fsA ["r"]).take 1)).map
        (fun st => st.ext + st.skip) = some 1 ∧
    (1 : Nat) ≠ 2 :=
  ⟨rfl, rfl, by decide⟩

/-- **C1** (amended): after a completed run the reported totals satisfy
`scanned = extracted + skipped`; and after each archive is processed the
tallies satisfy `extracted + skipped = number of archives processed so far`
(the invariant `total = extracted + skipped` therefore holds once the last
archive is processed, not after each one). -/
theorem C1_tally_invariant (w : World) (fs : FS) (base : Path) (sub : Bool) :
    (∀ fs' tot ext skip log,
        mainRun w fs base sub = .completed fs' tot ext skip log →
        tot = ext + skip) ∧
    (∀ k st,
        runLoop w sub ⟨fs, 0, 0, []⟩ ((discover fs base).take k) = some st →
        st.ext + st.skip = ((discover fs base).take k).length) := by
  constructor
  · intro fs' tot ext skip log h
    obtain ⟨-, hrun, htot⟩ := mainRun_completed_elim h
    have h2 : ext + skip = 0 + 0 + (discover fs base).length :=
      runLoop_tally hrun
    omega
  · intro k st h
    have h2 : st.ext + st.skip = 0 + 0 + ((discover fs base).take k).length :=
      runLoop_tally h
    omega

/-- Witness for C1: the completed run over `fsA` reports `2 = 1 + 1`. -/
theorem C1_witness : (2 : Nat) = 1 + 1 :=
  (C1_tally_invariant wZ fsA ["r"] true).1 fsA' 2 1 1 logA rfl

/-- **C2** (corrected), counterexample to the claim as stated: over `fsB` the
destination of `r/a.zip` collides with the regular file `r/a`, `mkdir`
raises, and — because the `mkdir` call sits outside the `try` block — the
run aborts with a nonzero exit instead of skipping the archive and
continuing. -/
theorem C2_counterexample :
    mainRun wZ fsB ["r"] true = .aborted ∧
    (mainRun wZ fsB ["r"] true).exitCode ≠ 0 ∧
    (mainRun wZ fsB ["r"] true).finalFS = none :=
  ⟨rfl, by decide, rfl⟩

/-- **C2** (amended): when creating the destination directory of any
discovered archive fails — at any position in the scan, judged at the
filesystem as the earlier archives have left it — the exception propagates
out of `main`: the run aborts with a nonzero exit indication, no summary is
reported and the remaining archives are not processed; the failure is not
converted into a skip. -/
theorem C2_mkdir_uncaught (w : World) (fs : FS) (base : Path) (sub : Bool)
    (p : Path) (l1 l2 : List Path) (st : LoopState)
    (hex : fs.pathExists base = true)
    (hd : discover fs base = l1 ++ p :: l2)
    (hpre : runLoop w sub ⟨fs, 0, 0, []⟩ l1 = some st)
    (hm : mkdirParents st.fs (destFor sub p) = none) :
    mainRun w fs base sub = .aborted ∧
    (mainRun w fs base sub).exitCode = 1 := by
  have habort : processZip w sub st.fs p = .abort := by
    simp [processZip, hm]
  have hmain : mainRun w fs base sub = .aborted := by
    unfold mainRun
    rw [hex]
    simp only [Bool.not_true, Bool.false_eq_true, if_false, hd]
    rw [if_neg (by simp)]
    rw [runLoop_append, hpre]
    simp only [Option.some_bind]
    rw [runLoop_cons, habort]
  refine ⟨hmain, ?_⟩
  rw [hmain]
  rfl

/-- Witness for C2: over `fsB2` the first archive extracts, then the second
archive's destination is blocked by the regular file `r/b` and the run
aborts. -/
theorem C2_witness :
    mainRun wZ fsB2 ["r"] true = .aborted ∧
    (mainRun wZ fsB2 ["r"] true).exitCode = 1 :=
  C2_mkdir_uncaught wZ fsB2 ["r"] true ["r", "b.zip"] [["r", "a.zip"]] []
    stB2 rfl rfl rfl rfl

/-- **C3** (confirmed): when the root does not exist, `main` stops with
`sys.exit(1)` and the error message, and the filesystem is returned
untouched. -/
theorem C3_missing_root (w : World) (fs : FS) (base : Path) (sub : Bool)
    (h : fs.pathExists base = false) :
    mainRun w fs base sub =
      .rootMissing fs
        ("Error: base directory does not exist: " ++
          String.intercalate "/" base) ∧
    (mainRun w fs base sub).exitCode = 1 ∧
    (mainRun w fs base sub).finalFS = some fs := by
  have hmain : mainRun w fs base sub =
      .rootMissing fs
        ("Error: base directory does not exist: " ++
          String.intercalate "/" base) := by
    unfold mainRun
    rw [h]
    rfl
  exact ⟨hmain, by rw [hmain]; rfl, by rw [hmain]; rfl⟩

/-- Witness for C3 at a filesystem with no root `r`. -/
theorem C3_witness :
    mainRun wZ fsEmpty ["r"] true =
      .rootMissing fsEmpty
        ("Error: base directory does not exist: " ++
          String.intercalate "/" ["r"]) ∧
    (mainRun wZ fsEmpty ["r"] true).exitCode = 1 ∧
    (mainRun wZ fsEmpty ["r"] true).finalFS = some fsEmpty :=
  C3_missing_root wZ fsEmpty ["r"] true rfl

/-- **C4** (confirmed): when the root exists but no `*.zip` path is found,
`main` prints the informational message and returns with exit code 0,
leaving the filesystem untouched. -/
theorem C4_no_zips (w : World) (fs : FS) (base : Path) (sub : Bool)
    (h1 : fs.pathExists base = true) (h2 : discover fs base = []) :
    mainRun w fs base sub =
      .noZips fs ("No .zip files found under: " ++ String.intercalate "/" base) ∧
    (mainRun w fs base sub).exitCode = 0 ∧
    (mainRun w fs base sub).finalFS = some fs := by
  have hmain : mainRun w fs base sub =
      .noZips fs
        ("No .zip files found under: " ++ String.intercalate "/" base) := by
    unfold mainRun
    rw [h1]
    simp [h2]
  exact ⟨hmain, by rw [hmain]; rfl, by rw [hmain]; rfl⟩

/-- Witness for C4 at an existing empty root. -/
theorem C4_witness :
    mainRun wZ fsR ["r"] true =
      .noZips fsR ("No .zip files found under: " ++ String.intercalate "/" ["r"]) ∧
    (mainRun wZ fsR ["r"] true).exitCode = 0 ∧
    (mainRun wZ fsR ["r"] true).finalFS = some fsR :=
  C4_no_zips wZ fsR ["r"] true rfl rfl

/-- **C5** (confirmed): an archive whose `testzip` reports a first bad
member is skipped: the loop continues on the remaining archives with the
skipped counter incremented by exactly one and a warning naming the archive
and the bad member appended, and no file is written for that archive (the
filesystem changes only by the directory that `mkdir` created). -/
theorem C5_corrupt_skipped (w : World) (sub : Bool) (st : LoopState) (p : Path)
    (rest : List Path) (fs1 : FS) (c : Content) (es : List ZEntry) (bad : String)
    (hm : mkdirParents st.fs (destFor sub p) = some fs1)
    (hf : fs1.lookupFile p = some c)
    (hp : w.parse c = .archive es)
    (ht : testzip es = some bad) :
    runLoop w sub st (p :: rest) =
      runLoop w sub ⟨fs1, st.ext, st.skip + 1, st.log ++ [.warnCorrupt p bad]⟩
        rest ∧
    fs1.files = st.fs.files := by
  constructor
  · rw [runLoop_cons]
    have hstep : processZip w sub st.fs p = .skipped fs1 (.warnCorrupt p bad) := by
      simp [processZip, hm, hf, hp, ht]
    rw [hstep]
  · exact mkdirParents_files hm

/-- Witness for C5: `r/b.zip` of `fsA` is corrupt; the run continues on
`r/a.zip` and no file is written. -/
theorem C5_witness :
    runLoop wZ true ⟨fsA, 0, 0, []⟩ [["r", "b.zip"], ["r", "a.zip"]] =
      runLoop wZ true
        ⟨fs1B, 0, 0 + 1, [] ++ [.warnCorrupt ["r", "b.zip"] "b.txt"]⟩
        [["r", "a.zip"]] ∧
    fs1B.files = fsA.files :=
  C5_corrupt_skipped wZ true ⟨fsA, 0, 0, []⟩ ["r", "b.zip"] [["r", "a.zip"]]
    fs1B [1] [⟨["a.txt"], [1], true⟩, ⟨["b.txt"], [2], false⟩] "b.txt"
    rfl rfl rfl rfl

/-- **C6** (confirmed): the destination directory is the archive's parent in
flat mode, and in subfolder mode a sibling (same parent) whose name is the
archive's filename with its extension removed. -/
theorem C6_destination (p : Path) :
    destFor false p = p.dropLast ∧
    (destFor true p).dropLast = p.dropLast ∧
    pathName (destFor true p) ++ fileExtension (pathName p) = pathName p := by
  refine ⟨rfl, dropLast_destFor_true p, ?_⟩
  rw [pathName_destFor_true]
  exact withSuffixEmptyName_append_ext _

/-- **C7** (corrected), counterexample to the claim as stated: two archives
whose bytes raise `BadZipFile` with different underlying messages produce
the *same* log entry, and its rendered text is fixed around the archive
path — the `except zipfile.BadZipFile:` handler at line 57 names no
exception variable, so the underlying message is not included in the log,
contradicting "each log includes the archive path and underlying
message". -/
theorem C7_counterexample :
    wZ.parse [8] = .badZip "first underlying message" ∧
    wZ.parse [9] = .badZip "second underlying message" ∧
    ("first underlying message" : String) ≠ "second underlying message" ∧
    mainRun wZ fsH8 ["r"] true =
      .completed ⟨[["r"], ["r", "x"]], fsH8.files⟩ 1 0 1
        [.warnBadZip ["r", "x.zip"]] ∧
    mainRun wZ fsH9 ["r"] true =
      .completed ⟨[["r"], ["r", "x"]], fsH9.files⟩ 1 0 1
        [.warnBadZip ["r", "x.zip"]] ∧
    (LogEntry.warnBadZip ["r", "x.zip"]).render =
      "Bad/corrupted zip file (BadZipFile): r/x.zip. Skipping." :=
  ⟨rfl, rfl, by decide, rfl, rfl, rfl⟩

/-- **C7** (amended): every exception class raised while opening, validating
or extracting an archive is converted into a skip: the loop continues with
the skipped counter incremented by one and the class's log line appended,
at error severity for permission and unexpected errors and warning severity
for bad-zip and runtime errors. Every log line names the archive path; the
runtime, permission and unexpected lines also include the underlying
message, while the `BadZipFile` line is fixed text that discards it (see
`exceptionLogText`). -/
theorem C7_error_classified (w : World) (sub : Bool) (st : LoopState) (p : Path)
    (rest : List Path) (fs1 : FS) (c : Content) (l : LogEntry)
    (hm : mkdirParents st.fs (destFor sub p) = some fs1)
    (hf : fs1.lookupFile p = some c)
    (hl : errLog p (w.parse c) = some l) :
    runLoop w sub st (p :: rest) =
      runLoop w sub ⟨fs1, st.ext, st.skip + 1, st.log ++ [l]⟩ rest ∧
    some l.level = exceptionLevel (w.parse c) ∧
    some l.render = exceptionLogText p (w.parse c) := by
  cases hp : w.parse c with
  | archive es =>
    rw [hp] at hl
    simp [errLog] at hl
  | badZip m0 =>
    rw [hp] at hl
    simp only [errLog, Option.some_inj] at hl
    subst hl
    refine ⟨?_, by simp [exceptionLevel, LogEntry.level, hp],
      by simp [exceptionLogText, LogEntry.render, hp]⟩
    rw [runLoop_cons]
    have hstep : processZip w sub st.fs p = .skipped fs1 (.warnBadZip p) := by
      simp [processZip, hm, hf, hp]
    rw [hstep]
  | runtimeErr m =>
    rw [hp] at hl
    simp only [errLog, Option.some_inj] at hl
    subst hl
    refine ⟨?_, by simp [exceptionLevel, LogEntry.level, hp],
      by simp [exceptionLogText, LogEntry.render, hp]⟩
    rw [runLoop_cons]
    have hstep : processZip w sub st.fs p = .skipped fs1 (.warnRuntime p m) := by
      simp [processZip, hm, hf, hp]
    rw [hstep]
  | permErr m =>
    rw [hp] at hl
    simp only [errLog, Option.some_inj] at hl
    subst hl
    refine ⟨?_, by simp [exceptionLevel, LogEntry.level, hp],
      by simp [exceptionLogText, LogEntry.render, hp]⟩
    rw [runLoop_cons]
    have hstep : processZip w sub st.fs p = .skipped fs1 (.errPerm p m) := by
      simp [processZip, hm, hf, hp]
    rw [hstep]
  | otherErr m =>
    rw [hp] at hl
    simp only [errLog, Option.some_inj] at hl
    subst hl
    refine ⟨?_, by simp [exceptionLevel, LogEntry.level, hp],
      by simp [exceptionLogText, LogEntry.render, hp]⟩
    rw [runLoop_cons]
    have hstep : processZip w sub st.fs p = .skipped fs1 (.errUnexpected p m) := by
      simp [processZip, hm, hf, hp]
    rw [hstep]

/-- Witness for C7: a `PermissionError` archive is skipped at error
severity with the underlying message in the log text. -/
theorem C7_witness :
    runLoop wZ true ⟨fsG, 0, 0, []⟩ [["r", "p.zip"]] =
      runLoop wZ true
        ⟨fs1G, 0, 0 + 1, [] ++ [.errPerm ["r", "p.zip"] "denied"]⟩ [] ∧
    some (LogEntry.errPerm ["r", "p.zip"] "denied").level =
      exceptionLevel (wZ.parse [4]) ∧
    some (LogEntry.errPerm ["r", "p.zip"] "denied").render =
      exceptionLogText ["r", "p.zip"] (wZ.parse [4]) :=
  C7_error_classified wZ true ⟨fsG, 0, 0, []⟩ ["r", "p.zip"] [] fs1G [4]
    (.errPerm ["r", "p.zip"] "denied") rfl rfl rfl

/-- **C8** (corrected), counterexample to the claim as stated: `rglob`
matches by name only, so the directory `r/d.zip` — which is not a file — is
discovered, counted among the scanned archives, and processed (it fails as
an unexpected error and is skipped). -/
theorem C8_counterexample :
    discover fsC ["r"] = [["r", "d.zip"]] ∧
    FS.lookupFile fsC ["r", "d.zip"] = none ∧
    (["r", "d.zip"] : Path) ∈ fsC.dirs ∧
    mainRun wZ fsC ["r"] true =
      .completed ⟨[["r"], ["r", "d.zip"], ["r", "d"]], []⟩ 1 0 1
        [.errUnexpected ["r", "d.zip"] "not a regular file"] := by
  refine ⟨rfl, rfl, by decide, rfl⟩

/-- **C8** (amended): discovery enumerates exactly the paths under the root
— files and directories alike — whose final name ends in `.zip`; every such
path is treated as an archive, and nothing else is. -/
theorem C8_discovery (fs : FS) (base : Path) (p : Path) :
    p ∈ discover fs base ↔
      (p ∈ fs.dirs ∨ p ∈ fs.files.map Prod.fst) ∧
        pathUnder base p = true ∧ zipName (pathName p) = true :=
  mem_discover

/-- Witness for C8: the discovery characterisation applied to the directory
`r/d.zip`. -/
theorem C8_witness : (["r", "d.zip"] : Path) ∈ discover fsC ["r"] :=
  (C8_discovery fsC ["r"] ["r", "d.zip"]).mpr (by decide)

/-- **C9** (corrected), counterexample to the claim as stated: the archive
`r/a.zip` of `fsD` contains a member `inner.zip`, itself a valid archive.
The first run extracts `r/a/inner.zip`; the second run discovers that new
archive and extracts it too, so the filesystem after the second run differs
from the filesystem after the first — rerunning is not idempotent. -/
theorem C9_counterexample :
    mainRun wZ fsD ["r"] true =
      .completed fsD1 1 1 0 [.infoExtracted ["r", "a.zip"] ["r", "a"]] ∧
    mainRun wZ fsD1 ["r"] true =
      .completed fsD2 2 2 0
        [.infoExtracted ["r", "a.zip"] ["r", "a"],
         .infoExtracted ["r", "a", "inner.zip"] ["r", "a", "inner"]] ∧
    fsD2 ≠ fsD1 :=
  ⟨rfl, rfl, by decide⟩

/-- **C9** (amended): rerunning `main` over the same root in subfolder mode
is idempotent — the filesystem after the second completed run equals the
filesystem after the first — provided the first run creates no new
`*.zip`-named path (no archive contains a nested zip member and no
destination folder is itself named `*.zip`), the initial filesystem is
prefix-closed, and no two extracted members share a target path. With
nested archives the property fails (see the counterexample). -/
theorem C9_idempotent (w : World) (fs0 : FS) (base : Path)
    (fs1 fs2 : FS) (t1 e1 s1 t2 e2 s2 : Nat) (l1 l2 : List LogEntry)
    (hwf : fs0.wfPrefixClosed = true)
    (hnz : noNestedZips w fs0 base = true)
    (hnd : (allTargets w fs0 base true).Nodup)
    (h1 : mainRun w fs0 base true = .completed fs1 t1 e1 s1 l1)
    (h2 : mainRun w fs1 base true = .completed fs2 t2 e2 s2 l2) :
    fs2 = fs1 := by
  obtain ⟨hex1, hrun1, -⟩ := mainRun_completed_elim h1
  obtain ⟨hex2, hrun2, -⟩ := mainRun_completed_elim h2
  have hfacts := run1_facts hwf hnz hnd
    (rfl : (⟨fs0, 0, 0, []⟩ : LoopState).fs = fs0) hrun1
  have hsim : SimInv fs0 fs1 := hfacts.1
  have hdisc : discover fs1 base = discover fs0 base :=
    discover_eq_of_SimInv hsim base
  rw [hdisc] at hrun2
  exact runLoop_noop hsim hfacts.2 _ _ _ (fun q hq => hq) rfl hrun2

/-- Witness for C9: one well-behaved archive; the second run leaves the
filesystem of the first run unchanged. -/
theorem C9_witness : fsE2 = fsE1 :=
  C9_idempotent wZ fsE ["r"] fsE1 fsE2 1 1 0 1 1 0
    [.infoExtracted ["r", "a.zip"] ["r", "a"]]
    [.infoExtracted ["r", "a.zip"] ["r", "a"]]
    (by decide) (by decide) (by decide) rfl rfl

/-- **C10** (confirmed): the destination directory is created before the
archive is opened or validated, so after a completed run every discovered
archive — including those skipped as corrupt or unreadable — has its
destination directory present on the filesystem. -/
theorem C10_dest_created (w : World) (fs : FS) (base : Path) (sub : Bool)
    (fs' : FS) (tot ext skip : Nat) (log : List LogEntry)
    (h : mainRun w fs base sub = .completed fs' tot ext skip log)
    (p : Path) (hp : p ∈ discover fs base) (hne : destFor sub p ≠ []) :
    destFor sub p ∈ fs'.dirs := by
  obtain ⟨-, hrun, -⟩ := mainRun_completed_elim h
  exact runLoop_dest_mem hrun hp hne

/-- Witness for C10: the corrupt archive `r/b.zip` of `fsA` is skipped, yet
its destination directory `r/b` exists after the run. -/
theorem C10_witness : destFor true ["r", "b.zip"] ∈ fsA'.dirs :=
  C10_dest_created wZ fsA ["r"] true fsA' 2 1 1 logA rfl ["r", "b.zip"]
    (by decide) (by decide)

end ZipExtractor
